import Mathlib

/-!
Shallow embedding of the two line-span commenting scripts
(`comment_io_puts_final.py`, strict-prefix policy, and
`comment_io_puts_smart.py`, contains-anywhere policy).

A document is a list of lines; a line is a list of characters
(`readlines` keeps the trailing newline on each line; the model is
agnostic to whether the terminator is present).  Python whitespace
(`str.strip`, regex `\s`) is modelled by the six ASCII whitespace
characters, which covers every character the scripts care about.
-/

namespace CommentScripts

abbrev Line := List Char

/-- The six ASCII whitespace characters recognised by Python's
`str.strip()` and the regex class `\s` (restricted to ASCII input). -/
def pyIsSpace (c : Char) : Bool :=
  c = ' ' || c = '\t' || c = '\n' || c = '\r' || c = '\x0b' || c = '\x0c'

/-- `str.strip()`: drop leading and trailing whitespace. -/
def pyStrip (l : Line) : Line :=
  ((l.dropWhile pyIsSpace).reverse.dropWhile pyIsSpace).reverse

/-- The target text `IO.puts` searched for by both scripts. -/
def target : Line := "IO.puts".toList

/-- The comment marker `'# '` that both scripts prepend. -/
def mark : Line := "# ".toList

/-- If `pre` is a leading segment of `l`, return the remainder. -/
def dropPre : List Char → List Char → Option (List Char)
  | [], l => some l
  | _ :: _, [] => none
  | a :: as, b :: bs => if a = b then dropPre as bs else none

/-- Python's `sub in s` operator: does `n` occur as a contiguous
segment of `l`?  (non-empty positions and the empty-haystack case). -/
def containsSub (n : List Char) : List Char → Bool
  | [] => n.isEmpty
  | c :: rest => (dropPre n (c :: rest)).isSome || containsSub n rest

/-- Helper for `countSub`: `skip` is the number of characters still to
be stepped over from the most recent match (a match at the current
position consumes the whole occurrence before scanning resumes). -/
def countSubAux (n : List Char) : Nat → List Char → Nat
  | _, [] => 0
  | s + 1, _ :: rest => countSubAux n s rest
  | 0, c :: rest =>
    match dropPre n (c :: rest) with
    | some _ => 1 + countSubAux n (n.length - 1) rest
    | none => countSubAux n 0 rest

/-- Python's `s.count(sub)`: count non-overlapping occurrences of `n`,
scanning left to right and resuming after each match. -/
def countSub (n : List Char) (hay : List Char) : Nat :=
  countSubAux n 0 hay

/-- `line.count('(') - line.count(')')` as a signed integer. -/
def parenDelta (l : Line) : Int :=
  (l.count '(' : Int) - (l.count ')' : Int)

/-- The triple-quote delimiter `\x22\x22\x22`. -/
def tq : Line := ['"', '"', '"']

/-- `'\x22\x22\x22' in line and line.count('\x22\x22\x22') % 2 == 1`:
the initial value of the `in_heredoc` flag on a span's start line. -/
def initH (l : Line) : Bool :=
  containsSub tq l && (countSub tq l % 2 == 1)

/-- The heredoc-flag update performed on each continuation line:
toggle the flag when the line holds an odd number of triple quotes. -/
def nextH (h : Bool) (l : Line) : Bool :=
  if containsSub tq l && (countSub tq l % 2 == 1) then !h else h

/-- `re.match(r'^\s*IO\.puts\s*\(', line.strip())` from the strict
script: after stripping, skip `\s*`, read the literal target, skip
`\s*`, and require an opening parenthesis. -/
def strictStart (l : Line) : Bool :=
  match dropPre target ((pyStrip l).dropWhile pyIsSpace) with
  | none => false
  | some r =>
    match r.dropWhile pyIsSpace with
    | '(' :: _ => true
    | [] => false
    | _ :: _ => false

/-- The span-continuation test `paren_count > 0 or in_heredoc`. -/
def condGood (c : Int) (h : Bool) : Bool :=
  decide (0 < c) || h

/-- The inner `while` loop of the strict script's `process_file`:
starting from balance `c` and heredoc flag `h`, consume lines while
the continuation test holds (or input runs out), commenting each
consumed line.  Returns the commented continuation lines and the
unconsumed remainder. -/
def spanConsume : List Line → Int → Bool → List Line × List Line
  | [], _, _ => ([], [])
  | l :: rest, c, h =>
    if condGood c h then
      let p := spanConsume rest (c + parenDelta l) (nextH h l)
      ((mark ++ l) :: p.1, p.2)
    else ([], l :: rest)

theorem spanConsume_snd_length_le (ls : List Line) (c : Int) (h : Bool) :
    (spanConsume ls c h).2.length ≤ ls.length := by
  induction ls generalizing c h with
  | nil => simp [spanConsume]
  | cons l rest ih =>
    by_cases hc : condGood c h = true
    · simpa [spanConsume, hc] using
        Nat.le_succ_of_le (ih (c + parenDelta l) (nextH h l))
    · simp [spanConsume, hc]

/-- The whole scanning loop of `process_file` in the strict script:
returns `new_lines` together with the `modified` flag.  On a start
line the span is consumed and scanning resumes on the remainder (the
outer loop re-examines the line on which the inner loop stopped). -/
def processFinal : List Line → List Line × Bool
  | [] => ([], false)
  | l :: rest =>
    if strictStart l then
      ((mark ++ l) ::
        ((spanConsume rest (parenDelta l) (initH l)).1 ++
          (processFinal (spanConsume rest (parenDelta l) (initH l)).2).1),
        true)
    else
      ((l :: (processFinal rest).1), (processFinal rest).2)
termination_by ls => ls.length
decreasing_by
  · simp only [List.length_cons]
    exact Nat.lt_succ_of_le (spanConsume_snd_length_le _ _ _)
  · simp

/-- `re.match(r'^\s*IO\.puts', line)` from the contains-anywhere
script: skip leading `\s*`, then read the literal target. -/
def smartStandalone (l : Line) : Bool :=
  (dropPre target (l.dropWhile pyIsSpace)).isSome

/-- `re.sub(r'^(\s*)IO\.puts', r'\1# IO.puts', line)`: keep the
leading whitespace, insert `'# '` before the target occurrence. -/
def subStandalone (l : Line) : Line :=
  match dropPre target (l.dropWhile pyIsSpace) with
  | some rest => l.takeWhile pyIsSpace ++ mark ++ target ++ rest
  | none => l

/-- The literal `IO.puts(` that opens an embedded call. -/
def callPre : Line := "IO.puts(".toList

/-- Scan for the first `')'` and return what follows it (the regex
piece `[^)]*\)`: greedy up to the first closing parenthesis). -/
def afterClose : List Char → Option (List Char)
  | [] => none
  | c :: rest => if c = ')' then some rest else afterClose rest

/-- Match `IO\.puts\([^)]*\)` at the head of `l`; on success return
the remainder of `l` after the match. -/
def matchCall (l : List Char) : Option (List Char) :=
  match dropPre callPre l with
  | none => none
  | some rest => afterClose rest

theorem afterClose_length {l r : List Char} (hr : afterClose l = some r) :
    r.length < l.length := by
  induction l with
  | nil => simp [afterClose] at hr
  | cons c rest ih =>
    by_cases hc : c = ')'
    · simp [afterClose, hc] at hr
      subst hr
      simp
    · simp [afterClose, hc] at hr
      exact Nat.lt_succ_of_lt (ih hr)

theorem dropPre_eq_some {n l r : List Char} (hr : dropPre n l = some r) :
    l = n ++ r := by
  induction n generalizing l with
  | nil => simpa [dropPre] using hr
  | cons a as ih =>
    match l with
    | [] => simp [dropPre] at hr
    | b :: bs =>
      by_cases hab : a = b
      · subst hab
        simp only [dropPre, if_pos rfl] at hr
        simpa using ih hr
      · simp [dropPre, hab] at hr

theorem matchCall_length {l r : List Char} (hr : matchCall l = some r) :
    r.length < l.length := by
  unfold matchCall at hr
  match hd : dropPre callPre l with
  | none => rw [hd] at hr; exact absurd hr (by simp)
  | some rest =>
    rw [hd] at hr
    have h1 : r.length < rest.length := afterClose_length hr
    have h2 : l = callPre ++ rest := dropPre_eq_some hd
    have : rest.length ≤ l.length := by simp [h2]
    omega

/-- `re.sub(r'IO\.puts\([^)]*\)', ':ok', line)`: replace every
non-overlapping occurrence, scanning left to right. -/
def subCall (l : List Char) : List Char :=
  match l with
  | [] => []
  | c :: rest =>
    match hm : matchCall (c :: rest) with
    | some rem => ":ok".toList ++ subCall rem
    | none => c :: subCall rest
termination_by l.length
decreasing_by
  · exact matchCall_length hm
  · simp

/-- `re.sub(r'^(\s*)', r'\1# ', line)`: insert `'# '` after the
leading whitespace. -/
def indentComment (l : Line) : Line :=
  l.takeWhile pyIsSpace ++ mark ++ l.dropWhile pyIsSpace

/-- The per-line body of the contains-anywhere script's loop. -/
def smartLine (l : Line) : Line :=
  if containsSub target l then
    if smartStandalone l then subStandalone l
    else
      let m := subCall l
      if containsSub target m then indentComment m else m
  else l

/-- The whole loop of `process_file` in the contains-anywhere script:
each line is rewritten independently. -/
def processSmart (ls : List Line) : List Line :=
  ls.map smartLine

/-- The file's content as one string: the concatenation of its lines
(each line keeps its terminator, so this is exactly `f.read()`). -/
def contentOf (ls : List Line) : Line :=
  ls.flatten

/-- The contains-anywhere script's `main` writes a file back iff its
content contains the target (`process_file` itself always writes). -/
def smartWrites (ls : List Line) : Bool :=
  containsSub target (contentOf ls)

/-- The strict script writes a file back iff `main`'s content check
passes and `process_file` set its `modified` flag. -/
def finalWrites (ls : List Line) : Bool :=
  containsSub target (contentOf ls) && (processFinal ls).2

/-- Fuel-indexed twin of `subCall` (structural recursion on the fuel,
so that the kernel can evaluate it); `subCall_eq_fuel` below proves it
agrees with `subCall` whenever the fuel covers the input length. -/
def subCallF : Nat → List Char → List Char
  | _, [] => []
  | 0, l => l
  | f + 1, c :: rest =>
    match matchCall (c :: rest) with
    | some rem => ":ok".toList ++ subCallF f rem
    | none => c :: subCallF f rest

/-- Kernel-evaluable twin of `smartLine` (see `smartLine_eq_E`). -/
def smartLineE (l : Line) : Line :=
  if containsSub target l then
    if smartStandalone l then subStandalone l
    else
      if containsSub target (subCallF l.length l) then
        indentComment (subCallF l.length l)
      else subCallF l.length l
  else l

/-- One scanning state of the strict script's loops: lines emitted so
far, lines still to scan, the span-extension state (`some (c, h)`
while the inner loop runs), and the `modified` flag. -/
structure MState where
  out : List Line
  rem : List Line
  mode : Option (Int × Bool)
  md : Bool

/-- One iteration of the outer loop body at line `l`. -/
def stepOuter (out : List Line) (l : Line) (rest : List Line) (md : Bool) :
    MState :=
  if strictStart l then
    ⟨out ++ [mark ++ l], rest, some (parenDelta l, initH l), true⟩
  else ⟨out ++ [l], rest, none, md⟩

/-- One loop iteration of the strict script: exactly one input line is
consumed per step (the scan index increases by one), so `ls.length`
steps always finish the scan. -/
def step (s : MState) : MState :=
  match s.rem with
  | [] => s
  | l :: rest =>
    match s.mode with
    | some (c, h) =>
      if condGood c h then
        ⟨s.out ++ [mark ++ l], rest, some (c + parenDelta l, nextH h l), s.md⟩
      else stepOuter s.out l rest s.md
    | none => stepOuter s.out l rest s.md

/-- The result the remaining computation of a state will produce. -/
def run (s : MState) : List Line × Bool :=
  match s.mode with
  | none =>
    (s.out ++ (processFinal s.rem).1, s.md || (processFinal s.rem).2)
  | some (c, h) =>
    (s.out ++ (spanConsume s.rem c h).1 ++
        (processFinal (spanConsume s.rem c h).2).1,
      s.md || (processFinal (spanConsume s.rem c h).2).2)

/-- The span state after the extender has consumed the given lines. -/
def stateAfter (c : Int) (h : Bool) : List Line → Int × Bool
  | [] => (c, h)
  | l :: rest => stateAfter (c + parenDelta l) (nextH h l) rest

/-- Every line except possibly the last ends with a newline — the
shape `readlines()` guarantees for every real file. -/
def terminated : List Line → Bool
  | [] => true
  | [_] => true
  | l :: r :: rest => (l.getLast? == some '\n') && terminated (r :: rest)

/-- Modelled from the spec: "a line is a start only if, after
stripping leading whitespace, it matches `TARGET(` literally at
position 0" — the target name immediately followed by `(`, no
whitespace in between (the detector claim C4 states). -/
def specStrictImmediate (l : Line) : Bool :=
  (dropPre ("IO.puts(".toList) (pyStrip l)).isSome

/-- How an output line may relate to the input line at the same
position under the strict script: unchanged, or comment-prefixed. -/
def lineRel (a b : Line) : Prop :=
  b = a ∨ b = mark ++ a

/-! ### Basic facts about the embedded string primitives -/

theorem target_eq : target = ['I', 'O', '.', 'p', 'u', 't', 's'] := rfl

theorem mark_eq : mark = ['#', ' '] := rfl

theorem dropPre_self (n r : List Char) : dropPre n (n ++ r) = some r := by
  induction n with
  | nil => simp [dropPre]
  | cons a as ih => simp [dropPre, ih]

theorem isSome_dropPre_iff {n l : List Char} :
    (dropPre n l).isSome = true ↔ n <+: l := by
  constructor
  · intro h
    match hd : dropPre n l with
    | none => rw [hd] at h; simp at h
    | some r => exact ⟨r, (dropPre_eq_some hd).symm⟩
  · rintro ⟨r, rfl⟩
    simp [dropPre_self]

theorem containsSub_iff {n l : List Char} :
    containsSub n l = true ↔ n <:+: l := by
  induction l with
  | nil => simp [containsSub, List.isEmpty_iff]
  | cons c rest ih =>
    simp [containsSub, ih, isSome_dropPre_iff, List.infix_cons_iff]

/-- A prefix of a list with no leading `p`-run keeps that property. -/
theorem dropWhile_eq_self_of_isPre {p : Char → Bool} {u v : List Char}
    (huv : u <+: v) (hv : v.dropWhile p = v) : u.dropWhile p = u := by
  match u, huv with
  | [], _ => simp
  | a :: u', ⟨t, ht⟩ =>
    have hpa : p a = false := by
      by_contra hpa
      rw [Bool.not_eq_false] at hpa
      rw [← ht] at hv
      rw [List.cons_append, List.dropWhile_cons_of_pos hpa] at hv
      have h1 : ((u' ++ t).dropWhile p).length ≤ (u' ++ t).length :=
        (List.dropWhile_suffix p).length_le
      rw [hv] at h1
      simp at h1
    simp [List.dropWhile_cons, hpa]

theorem pyStrip_isPre (l : Line) : pyStrip l <+: l.dropWhile pyIsSpace := by
  have h1 : (l.dropWhile pyIsSpace).reverse.dropWhile pyIsSpace <:+
      (l.dropWhile pyIsSpace).reverse := List.dropWhile_suffix _
  have h2 := List.reverse_prefix.mpr h1
  rw [List.reverse_reverse] at h2
  exact h2

theorem pyStrip_within (l : Line) : pyStrip l <:+: l :=
  (pyStrip_isPre l).isInfix.trans (List.dropWhile_suffix pyIsSpace).isInfix

theorem dropWhile_pyStrip (l : Line) :
    (pyStrip l).dropWhile pyIsSpace = pyStrip l :=
  dropWhile_eq_self_of_isPre (pyStrip_isPre l)
    (List.dropWhile_idempotent pyIsSpace l)

/-- A detected strict start implies the target text occurs in the line. -/
theorem strictStart_contains {l : Line} (h : strictStart l = true) :
    containsSub target l = true := by
  rw [containsSub_iff]
  unfold strictStart at h
  match hd : dropPre target ((pyStrip l).dropWhile pyIsSpace) with
  | none => rw [hd] at h; simp at h
  | some r =>
    have he : (pyStrip l).dropWhile pyIsSpace = target ++ r := dropPre_eq_some hd
    have h1 : target <+: pyStrip l := by
      rw [← dropWhile_pyStrip l, he]; exact ⟨r, rfl⟩
    exact h1.isInfix.trans (pyStrip_within l)

/-- Stripping keeps a non-whitespace head character in place. -/
theorem pyStrip_cons_of_neg {c : Char} (hc : pyIsSpace c = false) (l : Line) :
    ∃ w, pyStrip (c :: l) = c :: w := by
  unfold pyStrip
  rw [List.dropWhile_cons_of_neg (by simp [hc]), List.reverse_cons,
    List.dropWhile_append]
  by_cases hd : (l.reverse.dropWhile pyIsSpace).isEmpty = true
  · rw [if_pos hd, List.dropWhile_cons_of_neg (by simp [hc])]
    exact ⟨[], by simp⟩
  · rw [if_neg hd]
    exact ⟨(l.reverse.dropWhile pyIsSpace).reverse, by simp⟩

/-- A line that the strict script has already commented can never be
detected as a statement start again: it now begins with `'#'`. -/
theorem strictStart_mark (l : Line) : strictStart (mark ++ l) = false := by
  obtain ⟨w, hw⟩ := pyStrip_cons_of_neg (c := '#') (by decide) (' ' :: l)
  have hml : mark ++ l = '#' :: ' ' :: l := by simp [mark_eq]
  have hs : pyStrip (mark ++ l) = '#' :: w := by rw [hml]; exact hw
  have hn : dropPre target ('#' :: w) = none := by
    rw [target_eq]; simp [dropPre]
  unfold strictStart
  rw [hs, List.dropWhile_cons_of_neg (by decide), hn]

/-- The inner loop consumes an initial segment of its input,
commenting exactly the consumed lines. -/
theorem spanConsume_eq_take_drop (ls : List Line) (c : Int) (h : Bool) :
    ∃ k, (spanConsume ls c h).1 = (ls.take k).map (fun l => mark ++ l) ∧
      (spanConsume ls c h).2 = ls.drop k := by
  induction ls generalizing c h with
  | nil => exact ⟨0, by simp [spanConsume]⟩
  | cons l rest ih =>
    by_cases hc : condGood c h = true
    · obtain ⟨k, h1, h2⟩ := ih (c + parenDelta l) (nextH h l)
      exact ⟨k + 1, by simp [spanConsume, hc, h1, h2]⟩
    · exact ⟨0, by simp [spanConsume, hc]⟩

/-- If no line is a strict start, the strict script changes nothing
and reports no modification. -/
theorem processFinal_no_start {ls : List Line}
    (h : ∀ l ∈ ls, strictStart l = false) : processFinal ls = (ls, false) := by
  induction ls with
  | nil => simp [processFinal]
  | cons l rest ih =>
    rw [processFinal, if_neg (by simp [h l (by simp)]),
      ih (fun x hx => h x (by simp [hx]))]

/-- Every line the strict script outputs fails the start test: it is
either an untouched non-start line or carries the comment marker. -/
theorem processFinal_out_no_start (ls : List Line) :
    ∀ x ∈ (processFinal ls).1, strictStart x = false := by
  generalize hn : ls.length = n
  induction n using Nat.strong_induction_on generalizing ls with
  | _ n ih =>
    match ls, hn with
    | [], _ => simp [processFinal]
    | l :: rest, hn =>
      by_cases hs : strictStart l = true
      · rw [processFinal, if_pos hs]
        intro x hx
        simp only [List.mem_cons, List.mem_append] at hx
        rcases hx with rfl | hx | hx
        · exact strictStart_mark l
        · obtain ⟨k, h1, _⟩ :=
            spanConsume_eq_take_drop rest (parenDelta l) (initH l)
          rw [h1] at hx
          obtain ⟨y, _, rfl⟩ := List.mem_map.mp hx
          exact strictStart_mark y
        · have hlen : (spanConsume rest (parenDelta l) (initH l)).2.length <
              n := by
            have := spanConsume_snd_length_le rest (parenDelta l) (initH l)
            simp only [List.length_cons] at hn
            omega
          exact ih _ hlen _ rfl x hx
      · rw [processFinal, if_neg hs]
        intro x hx
        rcases List.mem_cons.mp hx with rfl | hx
        · exact Bool.not_eq_true _ ▸ Bool.of_not_eq_true hs
        · have hlen : rest.length < n := by
            simp only [List.length_cons] at hn
            omega
          exact ih _ hlen _ rfl x hx

/-! ### The fuel twin agrees with `subCall` -/

theorem subCall_eq_fuel :
    ∀ (fuel : Nat) (l : List Char), l.length ≤ fuel →
      subCall l = subCallF fuel l := by
  intro fuel
  induction fuel with
  | zero =>
    intro l hl
    match l, hl with
    | [], _ => rw [subCall]; rfl
  | succ f ih =>
    intro l hl
    match l with
    | [] => rw [subCall]; rfl
    | c :: rest =>
      rw [subCall, subCallF]
      cases hm2 : matchCall (c :: rest) with
      | some rem =>
        have hlen : rem.length ≤ f := by
          have := matchCall_length hm2
          simp only [List.length_cons] at hl this
          omega
        simp only [hm2, ih rem hlen]
      | none =>
        have hlen : rest.length ≤ f := by
          simp only [List.length_cons] at hl
          omega
        simp only [hm2, ih rest hlen]

theorem smartLine_eq_E (l : Line) : smartLine l = smartLineE l := by
  rw [smartLine, smartLineE, subCall_eq_fuel l.length l (le_refl _)]

theorem processSmart_eq_E (ls : List Line) :
    processSmart ls = ls.map smartLineE := by
  unfold processSmart
  exact List.map_congr_left fun l _ => smartLine_eq_E l

/-! ### The step machine computes `processFinal` -/

theorem step_rem (s : MState) : (step s).rem = s.rem.tail := by
  rcases s with ⟨out, _ | ⟨l, rest⟩, _ | ⟨c, h⟩, md⟩ <;>
    simp only [step, stepOuter, List.tail_cons, List.tail_nil] <;>
    (try split) <;> (try split) <;> rfl

theorem iterate_rem (n : Nat) (s : MState) :
    (step^[n] s).rem = s.rem.drop n := by
  induction n generalizing s with
  | zero => simp
  | succ n ih =>
    rw [Function.iterate_succ_apply, ih, step_rem, List.drop_tail]

theorem run_stepOuter (out : List Line) (l : Line) (rest : List Line)
    (md : Bool) :
    run (stepOuter out l rest md) = (out ++ (processFinal (l :: rest)).1,
      md || (processFinal (l :: rest)).2) := by
  by_cases hs : strictStart l = true
  · rw [stepOuter, if_pos hs, processFinal, if_pos hs]
    simp [run]
  · rw [stepOuter, if_neg hs, processFinal,
      if_neg (by simpa using Bool.of_not_eq_true hs)]
    simp [run]

theorem run_step (s : MState) : run (step s) = run s := by
  rcases s with ⟨out, _ | ⟨l, rest⟩, _ | ⟨c, h⟩, md⟩
  · rfl
  · rfl
  · rw [step, run_stepOuter]
    rfl
  · show run (if condGood c h then _ else stepOuter out l rest md) = _
    by_cases hc : condGood c h = true
    · rw [if_pos hc]
      show _ = run ⟨out, l :: rest, some (c, h), md⟩
      rw [run, run]
      simp only [spanConsume, if_pos hc]
      simp
    · rw [if_neg hc, run_stepOuter]
      show _ = run ⟨out, l :: rest, some (c, h), md⟩
      rw [run]
      simp only [spanConsume, if_neg hc]
      simp

theorem run_iterate (n : Nat) (s : MState) : run (step^[n] s) = run s := by
  induction n generalizing s with
  | zero => rfl
  | succ n ih => rw [Function.iterate_succ_apply, ih, run_step]

theorem run_of_rem_nil {s : MState} (h : s.rem = []) :
    run s = (s.out, s.md) := by
  rcases s with ⟨out, rem, _ | ⟨c, hh⟩, md⟩ <;> subst h <;>
    simp [run, processFinal, spanConsume]

/-- `processFinal` is what `ls.length` iterations of the single-line
step compute: the scan needs at most one visit per input line. -/
theorem processFinal_eval (ls : List Line) :
    processFinal ls = ((step^[ls.length] ⟨[], ls, none, false⟩).out,
      (step^[ls.length] ⟨[], ls, none, false⟩).md) := by
  have h1 : (step^[ls.length] (⟨[], ls, none, false⟩ : MState)).rem = [] := by
    rw [iterate_rem]
    simp
  have h2 := run_iterate ls.length ⟨[], ls, none, false⟩
  rw [run_of_rem_nil h1] at h2
  have h3 : run ⟨[], ls, none, false⟩ = processFinal ls := by
    simp [run]
  rw [h3] at h2
  exact h2.symm

/-! ### Per-line facts about the contains-anywhere script -/

theorem smartLine_not_contains {l : Line}
    (h : containsSub target l = false) : smartLine l = l := by
  simp [smartLine, h]

theorem processSmart_no_contains {ls : List Line}
    (h : ∀ l ∈ ls, containsSub target l = false) : processSmart ls = ls := by
  induction ls with
  | nil => rfl
  | cons l rest ih =>
    show smartLine l :: processSmart rest = l :: rest
    rw [smartLine_not_contains (h l (by simp)),
      ih fun x hx => h x (by simp [hx])]

theorem not_contains_of_content {ls : List Line} {l : Line}
    (hc : containsSub target (contentOf ls) = false) (hl : l ∈ ls) :
    containsSub target l = false := by
  by_contra h
  rw [Bool.not_eq_false] at h
  have h1 : target <:+: l := containsSub_iff.mp h
  have h2 : l <:+: ls.flatten := List.infix_of_mem_flatten hl
  have h3 := containsSub_iff.mpr (h1.trans h2)
  rw [contentOf] at hc
  rw [h3] at hc
  simp at hc

theorem processFinal_modified {ls : List Line}
    (h : (processFinal ls).2 = true) : ∃ l ∈ ls, strictStart l = true := by
  induction ls with
  | nil => rw [processFinal] at h; simp at h
  | cons l rest ih =>
    by_cases hs : strictStart l = true
    · exact ⟨l, by simp, hs⟩
    · rw [processFinal, if_neg hs] at h
      obtain ⟨x, hx, hsx⟩ := ih (by simpa using h)
      exact ⟨x, by simp [hx], hsx⟩

/-! ### Positional relation between input and output (strict script) -/

theorem forall₂_map_mark (xs : List Line) :
    List.Forall₂ lineRel xs (xs.map fun l => mark ++ l) := by
  induction xs with
  | nil => exact List.Forall₂.nil
  | cons a as ih => exact List.Forall₂.cons (Or.inr rfl) ih

theorem processFinal_forall₂ (ls : List Line) :
    List.Forall₂ lineRel ls (processFinal ls).1 := by
  generalize hn : ls.length = n
  induction n using Nat.strong_induction_on generalizing ls with
  | _ n ih =>
    match ls, hn with
    | [], _ => rw [processFinal]; exact List.Forall₂.nil
    | l :: rest, hn =>
      by_cases hs : strictStart l = true
      · rw [processFinal, if_pos hs]
        obtain ⟨k, h1, h2⟩ :=
          spanConsume_eq_take_drop rest (parenDelta l) (initH l)
        rw [h1, h2]
        have hlen : (rest.drop k).length < n := by
          simp only [List.length_cons] at hn
          have := List.length_drop k rest
          omega
        have hb := ih _ hlen (rest.drop k) rfl
        have ha := forall₂_map_mark (rest.take k)
        have hab : List.Forall₂ lineRel (rest.take k ++ rest.drop k)
            ((rest.take k).map (fun l => mark ++ l) ++
              (processFinal (rest.drop k)).1) := List.rel_append ha hb
        rw [List.take_append_drop] at hab
        exact List.Forall₂.cons (Or.inr rfl) hab
      · rw [processFinal, if_neg hs]
        have hlen : rest.length < n := by
          simp only [List.length_cons] at hn
          omega
        exact List.Forall₂.cons (Or.inl rfl) (ih _ hlen rest rfl)

/-! ### The span extender at end of file -/

theorem spanConsume_all {ls : List Line} {c : Int} {h : Bool}
    (hcond : ∀ i, i < ls.length →
      condGood (stateAfter c h (ls.take i)).1
        (stateAfter c h (ls.take i)).2 = true) :
    spanConsume ls c h = (ls.map fun l => mark ++ l, []) := by
  induction ls generalizing c h with
  | nil => rfl
  | cons l rest ih =>
    have h0 : condGood c h = true := by
      simpa [stateAfter] using hcond 0 (by simp)
    have hrest := ih (c := c + parenDelta l) (h := nextH h l) fun i hi => by
      simpa [stateAfter, List.take_succ_cons] using
        hcond (i + 1) (by simpa using Nat.succ_lt_succ hi)
    simp [spanConsume, h0, hrest]

/-! ### Exact characterisation of the strict start test -/

theorem strictStart_iff (l : Line) :
    strictStart l = true ↔ ∃ ws r, pyStrip l = target ++ (ws ++ '(' :: r) ∧
      ws.all pyIsSpace = true := by
  constructor
  · intro h
    unfold strictStart at h
    rw [dropWhile_pyStrip] at h
    split at h
    · exact absurd h (by simp)
    · rename_i rr hd
      split at h
      · rename_i rs hw
        have he : pyStrip l = target ++ rr := dropPre_eq_some hd
        refine ⟨rr.takeWhile pyIsSpace, rs, ?_, ?_⟩
        · rw [he]
          congr 1
          rw [← hw, List.takeWhile_append_dropWhile]
        · simp only [List.all_eq_true]
          intro x hx
          exact List.mem_takeWhile_imp hx
      · exact absurd h (by simp)
      · exact absurd h (by simp)
  · rintro ⟨ws, r, he, hws⟩
    have hd : (ws ++ '(' :: r).dropWhile pyIsSpace = '(' :: r := by
      rw [List.dropWhile_append]
      have hws2 : ws.dropWhile pyIsSpace = [] :=
        List.dropWhile_eq_nil_iff.mpr (by simpa using hws)
      simp [hws2]
      decide
    unfold strictStart
    rw [dropWhile_pyStrip, he, dropPre_self]
    show (match (ws ++ '(' :: r).dropWhile pyIsSpace with
      | '(' :: _ => true
      | [] => false
      | _ :: _ => false) = true
    rw [hd]
    rfl

/-! ### An occurrence in a file's content lies within one line -/

/-- An occurrence of `n` inside `l ++ F` lies wholly in `l` or wholly
in `F` when `l` ends in a character that `n` does not contain: the
occurrence cannot straddle the boundary. -/
theorem infix_append_split {n l F : List Char} {c : Char}
    (hne : c ∉ n) (hl : l.getLast? = some c) (h : n <:+: l ++ F) :
    n <:+: l ∨ n <:+: F := by
  obtain ⟨s, t, hst⟩ := h
  by_cases h1 : s.length + n.length ≤ l.length
  · left
    have hp1 : s ++ n <+: l ++ F :=
      ⟨t, by rw [← hst]; try simp [List.append_assoc]⟩
    have hp3 : s ++ n <+: l :=
      List.prefix_of_prefix_length_le hp1 ⟨F, rfl⟩ (by simpa using h1)
    obtain ⟨r, hr⟩ := hp3
    exact ⟨s, r, by rw [← hr]; try simp [List.append_assoc]⟩
  · by_cases h2 : l.length ≤ s.length
    · right
      have hp1 : l <+: s :=
        List.prefix_of_prefix_length_le ⟨F, rfl⟩
          ⟨n ++ t, by rw [← hst]; try simp [List.append_assoc]⟩ h2
      obtain ⟨s2, hs2⟩ := hp1
      have hF : s2 ++ n ++ t = F := by
        have h3 := hst
        rw [← hs2] at h3
        simpa [List.append_assoc] using h3
      exact ⟨s2, t, hF⟩
    · exfalso
      push_neg at h1 h2
      obtain ⟨w, hw⟩ := List.getLast?_eq_some_iff.mp hl
      have hp1 : l <+: s ++ n :=
        List.prefix_of_prefix_length_le ⟨F, rfl⟩
          ⟨t, by rw [← hst]; try simp [List.append_assoc]⟩
          (by simp only [List.length_append]; omega)
      obtain ⟨r2, hr2⟩ := hp1
      have hsw : s.length ≤ w.length := by
        have hlw : l.length = w.length + 1 := by simp [hw]
        omega
      have hdrop : (l ++ r2).drop s.length = n := by
        rw [hr2, List.drop_left]
      rw [hw, List.append_assoc, List.drop_append_of_le_length hsw] at hdrop
      apply hne
      rw [← hdrop]
      simp

/-- With newline-terminated lines an occurrence of the target in the
whole content implies an occurrence inside a single line (the target
holds no newline, so it cannot straddle a line boundary). -/
theorem contains_flatten_exists :
    ∀ ls : List Line, terminated ls = true →
      containsSub target (contentOf ls) = true →
      ∃ l ∈ ls, containsSub target l = true := by
  intro ls
  induction ls with
  | nil => intro _ h; exact absurd h (by decide)
  | cons l rest ih =>
    intro ht h
    cases rest with
    | nil =>
      refine ⟨l, by simp, ?_⟩
      simpa [contentOf] using h
    | cons r rest2 =>
      have hterm : (l.getLast? == some '\n') = true ∧
          terminated (r :: rest2) = true := by
        simpa [terminated, Bool.and_eq_true] using ht
      have htl : l.getLast? = some '\n' := by
        have := hterm.1
        simpa using this
      have hinf : target <:+: l ++ contentOf (r :: rest2) := by
        have := containsSub_iff.mp h
        simpa [contentOf] using this
      rcases infix_append_split (by decide) htl hinf with hc | hc
      · exact ⟨l, by simp, containsSub_iff.mpr hc⟩
      · obtain ⟨x, hx, hcx⟩ := ih hterm.2 (containsSub_iff.mpr hc)
        exact ⟨x, by simp [hx], hcx⟩

/-! ### The claims -/

/-- C1 counterexample: on the input line `  IO.puts("hello")` the
strict script prepends `'# '` to the whole line, so the marker lands
before the indentation, not after it as the claim states. -/
theorem C1_cex :
    (processFinal [("  IO.puts(\"hello\")").toList]).1 ≠
      [("  # IO.puts(\"hello\")").toList] := by
  rw [processFinal_eval]
  decide

/-- C1 amended: the balanced single-line statement `  IO.puts("hello")`
forms a one-line span (the parenthesis balance returns to 0 on that
line, so the following line is untouched), and its output line is
`#   IO.puts("hello")`: the comment marker and a space placed before
the original indentation. -/
theorem C1_amended :
    processFinal [("  IO.puts(\"hello\")").toList, ("x = 1").toList] =
      ([("#   IO.puts(\"hello\")").toList, ("x = 1").toList], true) := by
  rw [processFinal_eval]
  decide

/-- C2 counterexample: the contains-anywhere script is not idempotent:
its own output `  # IO.puts("x")` still contains the target, falls
into the embedded branch on a second run and becomes `  # :ok`. -/
theorem C2_cex :
    processSmart (processSmart [("  IO.puts(\"x\")").toList]) ≠
      processSmart [("  IO.puts(\"x\")").toList] := by
  simp only [processSmart_eq_E, List.map_map]
  decide

/-- C2 amended: the strict script is idempotent — a second run over
its own output finds no new start (the marker character blocks the
start regex), reports `modified = false` and changes no line.  The
contains-anywhere script has no such property. -/
theorem C2_amended (ls : List Line) :
    processFinal (processFinal ls).1 = ((processFinal ls).1, false) :=
  processFinal_no_start (processFinal_out_no_start ls)

/-- C3 counterexample: the contains-anywhere script has no span
extender: on the three-line statement `IO.puts(` / `"hello"` / `)`
only the start line receives the comment marker, and the continuation
line `"hello"` is emitted without it. -/
theorem C3_cex :
    processSmart [("IO.puts(").toList, ("\"hello\"").toList,
        (")").toList] =
      [("# IO.puts(").toList, ("\"hello\"").toList, (")").toList] ∧
    (("\"hello\"").toList : Line) ≠ mark ++ ("\"hello\"").toList := by
  refine ⟨?_, by decide⟩
  rw [processSmart_eq_E]
  decide

/-- C3 amended: the contains-anywhere script transforms each line
independently; every line in which the target text does not occur —
continuation lines of a multi-line statement included — is passed
through unchanged at its position. -/
theorem C3_amended (ls : List Line) (i : Nat) (l : Line)
    (hi : ls[i]? = some l) (hc : containsSub target l = false) :
    (processSmart ls)[i]? = some l := by
  show (ls.map smartLine)[i]? = some l
  rw [List.getElem?_map, hi]
  simp [smartLine_not_contains hc]

theorem C3_amended_witness :
    (([("IO.puts(").toList, ("\"hello\"").toList, (")").toList] :
        List Line)[1]? = some (("\"hello\"").toList) ∧
      containsSub target (("\"hello\"").toList) = false) ∧
    (processSmart [("IO.puts(").toList, ("\"hello\"").toList,
        (")").toList])[1]? = some (("\"hello\"").toList) :=
  ⟨⟨by decide, by decide⟩,
    C3_amended [("IO.puts(").toList, ("\"hello\"").toList, (")").toList]
      1 (("\"hello\"").toList) (by decide) (by decide)⟩

/-- C4 counterexample: the strict start regex contains `\s*` between
the target name and the parenthesis, so `IO.puts ("x")` is detected
even though the claimed predicate — `IO.puts(` literally at position
0 with no characters between name and parenthesis — rejects it. -/
theorem C4_cex :
    strictStart (("IO.puts (\"x\")").toList) = true ∧
    specStrictImmediate (("IO.puts (\"x\")").toList) = false := by
  decide

/-- C4 amended: a line is detected as a strict statement start iff,
after stripping leading (and trailing) whitespace, it begins with
`IO.puts`, followed by optional whitespace, followed by `(`. -/
theorem C4_amended (l : Line) :
    strictStart l = true ↔ ∃ ws r,
      pyStrip l = target ++ (ws ++ '(' :: r) ∧ ws.all pyIsSpace = true :=
  strictStart_iff l

/-- C5: on the four-line triple-quoted input all four lines are
commented; the string-block flag turns on at line 1 (odd delimiter
count), stays on through lines 2–3, turns off at line 4, where the
parenthesis delta `-1` also returns the balance to 0. -/
theorem C5_thm :
    processFinal [("IO.puts(\"\"\"").toList, ("multi").toList,
        ("line").toList, ("\"\"\")").toList] =
      ([("# IO.puts(\"\"\"").toList, ("# multi").toList,
        ("# line").toList, ("# \"\"\")").toList], true) ∧
    initH (("IO.puts(\"\"\"").toList) = true ∧
    nextH true (("multi").toList) = true ∧
    nextH true (("line").toList) = true ∧
    nextH true (("\"\"\")").toList) = false ∧
    parenDelta (("IO.puts(\"\"\"").toList) = 1 ∧
    parenDelta (("\"\"\")").toList) = -1 := by
  refine ⟨?_, by decide, by decide, by decide, by decide, by decide,
    by decide⟩
  rw [processFinal_eval]
  decide

/-- C6: under the contains-anywhere script the embedded call in
`  x -> IO.puts("y")` is replaced (up to the first closing
parenthesis) by the no-op placeholder, yielding exactly
`  x -> :ok`: one line in, one line out, no comment marker. -/
theorem C6_thm :
    processSmart [("  x -> IO.puts(\"y\")").toList] =
      [("  x -> :ok").toList] := by
  rw [processSmart_eq_E]
  decide

/-- C7: both scripts emit exactly one output line per input line, in
order: the strict script's i-th output line is the i-th input line
either unchanged or comment-prefixed, and the contains-anywhere
script's i-th output line is `smartLine` of the i-th input line. -/
theorem C7_thm (ls : List Line) :
    (processFinal ls).1.length = ls.length ∧
    (processSmart ls).length = ls.length ∧
    List.Forall₂ lineRel ls (processFinal ls).1 ∧
    ∀ i : Nat, (processSmart ls)[i]? = (ls[i]?).map smartLine := by
  refine ⟨(processFinal_forall₂ ls).length_eq.symm,
    by simp [processSmart], processFinal_forall₂ ls, fun i => ?_⟩
  show (ls.map smartLine)[i]? = (ls[i]?).map smartLine
  simp

/-- C8: a document whose content nowhere contains the target is left
unmodified and neither script writes it back; conversely a write-back
implies a detected match (a strict start line for the strict script;
for the contains-anywhere script — whose lines are newline-terminated
as `readlines` guarantees — a line containing the target). -/
theorem C8_thm (ls : List Line) (ht : terminated ls = true) :
    (containsSub target (contentOf ls) = false →
      finalWrites ls = false ∧ smartWrites ls = false ∧
      processFinal ls = (ls, false) ∧ processSmart ls = ls) ∧
    (finalWrites ls = true → ∃ l ∈ ls, strictStart l = true) ∧
    (smartWrites ls = true → ∃ l ∈ ls, containsSub target l = true) := by
  refine ⟨fun hnc => ?_, fun hw => ?_, fun hw => ?_⟩
  · have hline : ∀ l ∈ ls, containsSub target l = false :=
      fun l hl => not_contains_of_content hnc hl
    have hstart : ∀ l ∈ ls, strictStart l = false := fun l hl => by
      by_contra hs
      rw [Bool.not_eq_false] at hs
      exact absurd (strictStart_contains hs) (by simp [hline l hl])
    refine ⟨by simp [finalWrites, hnc], by simp [smartWrites, hnc],
      processFinal_no_start hstart, processSmart_no_contains hline⟩
  · have hmod : (processFinal ls).2 = true := by
      simp only [finalWrites, Bool.and_eq_true] at hw
      exact hw.2
    exact processFinal_modified hmod
  · exact contains_flatten_exists ls ht (by simpa [smartWrites] using hw)

theorem C8_witness :
    terminated [("a = 1\n").toList, ("b = 2").toList] = true ∧
    (containsSub target
        (contentOf [("a = 1\n").toList, ("b = 2").toList]) = false →
      finalWrites [("a = 1\n").toList, ("b = 2").toList] = false ∧
      smartWrites [("a = 1\n").toList, ("b = 2").toList] = false ∧
      processFinal [("a = 1\n").toList, ("b = 2").toList] =
        ([("a = 1\n").toList, ("b = 2").toList], false) ∧
      processSmart [("a = 1\n").toList, ("b = 2").toList] =
        [("a = 1\n").toList, ("b = 2").toList]) :=
  ⟨by decide,
    (C8_thm [("a = 1\n").toList, ("b = 2").toList] (by decide)).1⟩

/-- C9: if the continuation test (positive balance or open string
block) holds before every remaining line, the span extender consumes
and comments all of them and stops at end of file — no error — and
the whole file's processing completes with every line commented. -/
theorem C9_thm (l : Line) (ls : List Line) (hstart : strictStart l = true)
    (hcond : ∀ i, i < ls.length →
      condGood (stateAfter (parenDelta l) (initH l) (ls.take i)).1
        (stateAfter (parenDelta l) (initH l) (ls.take i)).2 = true) :
    spanConsume ls (parenDelta l) (initH l) =
      (ls.map fun x => mark ++ x, []) ∧
    processFinal (l :: ls) =
      ((mark ++ l) :: ls.map (fun x => mark ++ x), true) := by
  have hs := spanConsume_all hcond
  refine ⟨hs, ?_⟩
  rw [processFinal, if_pos hstart, hs]
  simp [processFinal]

theorem C9_witness :
    (strictStart (("IO.puts(").toList) = true ∧
      (∀ i, i < ([("a").toList, ("b").toList] : List Line).length →
        condGood (stateAfter (parenDelta (("IO.puts(").toList))
            (initH (("IO.puts(").toList))
            (([("a").toList, ("b").toList] : List Line).take i)).1
          (stateAfter (parenDelta (("IO.puts(").toList))
            (initH (("IO.puts(").toList))
            (([("a").toList, ("b").toList] : List Line).take i)).2 =
          true)) ∧
    processFinal (("IO.puts(").toList :: [("a").toList, ("b").toList]) =
      ((mark ++ ("IO.puts(").toList) ::
        ([("a").toList, ("b").toList] : List Line).map (fun x => mark ++ x),
        true) :=
  ⟨⟨by decide, by decide⟩,
    (C9_thm (("IO.puts(").toList) [("a").toList, ("b").toList]
      (by decide) (by decide)).2⟩

/-- C10: both scans terminate with each input line visited at most
once: for the strict script, `ls.length` iterations of the
one-line-per-iteration step empty the input and compute exactly
`processFinal ls`; the contains-anywhere script is a single map over
the lines. -/
theorem C10_thm (ls : List Line) :
    (step^[ls.length] ⟨[], ls, none, false⟩).rem = [] ∧
    ((step^[ls.length] ⟨[], ls, none, false⟩).out,
      (step^[ls.length] ⟨[], ls, none, false⟩).md) = processFinal ls ∧
    processSmart ls = ls.map smartLine := by
  refine ⟨?_, (processFinal_eval ls).symm, rfl⟩
  rw [iterate_rem]
  simp

end CommentScripts
